/-
Verification of `pyblp.construction` (construction.py): a shallow embedding
of `build_id_data`, `build_ownership`, `build_blp_instruments` and
`build_matrix`, together with theorems settling the specification claims.

Conventions of the embedding:
* Python `int` values are `Int`; dynamically-typed dictionary keys/values are
  `PyVal` (an integer or some non-integer hashable).
* numpy float arrays hold exact rationals (`ℚ`); `numpy.nan` padding in the
  ownership output is `Option ℚ` with `none` as the missing-value sentinel.
* A raising Python function becomes `Except BuildError _`; the error kinds
  follow the spec's taxonomy (InvalidArgument/ValueError,
  InvalidType/TypeError, MissingField/KeyError, InvalidShape, IndexError).
* A structured table (`product_data`) is `ProductTable`: each field is
  `Option`al (absent field = `none`); `market_ids` carries its column count
  together with its first column, `firm_ids` is stored column-major.
-/
import Mathlib

namespace PyBLPConstruction

/-- A dynamically-typed hashable value appearing in a merger dictionary:
either a Python `int` or anything that is not an `int`. -/
inductive PyVal where
  | int (n : Int)
  | nonInt
deriving DecidableEq, Repr

/-- One element of the `mergers` argument of `build_id_data`: either a
`dict` (its key/value pairs in iteration order) or a non-`dict` object. -/
inductive MergerEntry where
  | dict (pairs : List (PyVal × PyVal))
  | nonDict
deriving DecidableEq, Repr

/-- Error kinds raised by the builders, following the spec's taxonomy.
`invalidArgument` and `invalidShape` are both Python `ValueError`s,
`invalidType` is `TypeError`, `missingField` is `KeyError`,
`indexError` is `IndexError`. -/
inductive BuildError where
  | invalidArgument
  | invalidType
  | missingField
  | invalidShape
  | indexError
deriving DecidableEq, Repr

/-- The record array returned by `build_id_data`: the `market_ids` column and
the `firm_ids` matrix stored as a list of columns (baseline first, then one
column per merger, as stacked by `np.stack(firm_ids_list, axis=1)`). -/
structure IdData where
  market_ids : List Int
  firm_ids : List (List Int)
deriving DecidableEq, Repr

/-- `np.tile(np.arange(J), T)`: `T` concatenated copies of `0, …, J-1`. -/
def tileRange (J T : Nat) : List Nat :=
  (List.replicate T (List.range J)).flatten

/-- `np.repeat(np.arange(T), J)`: each of `0, …, T-1` repeated `J` times
(the `market_ids` column, construction.py line 80). -/
def repeatRange (T J : Nat) : List Int :=
  (List.range T).flatMap (fun t => List.replicate J ((t : Nat) : Int))

/-- The baseline firm-ID column `np.floor(np.tile(np.arange(J), T) * F / J)`
(construction.py line 71), with the float `floor` modelled as exact natural
division. -/
def baseFirmColumn (T J F : Nat) : List Int :=
  (tileRange J T).map (fun j => ((j * F / J : Nat) : Int))

/-- The validity test construction.py line 67 applies to one merger key/value
pair: both must be Python `int`s between `0` and `F - 1` inclusive. -/
def validPair (F : Int) : PyVal × PyVal → Bool
  | (.int f1, .int f2) =>
      (decide (0 ≤ f1) && decide (f1 ≤ F - 1)) &&
      (decide (0 ≤ f2) && decide (f2 ≤ F - 1))
  | _ => false

/-- The validation loop of construction.py lines 63-68: the first offending
merger entry determines the raised error (`TypeError` for a non-dict,
`ValueError` for a bad key/value pair). -/
def validateMergers (F : Int) : List MergerEntry → Option BuildError
  | [] => none
  | .nonDict :: _ => some .invalidType
  | .dict pairs :: rest =>
      if pairs.all (validPair F) then validateMergers F rest
      else some .invalidArgument

/-- The integer key/value pairs of a validated merger dictionary. -/
def toIntPairs (pairs : List (PyVal × PyVal)) : List (Int × Int) :=
  pairs.filterMap (fun p =>
    match p with
    | (.int a, .int b) => some (a, b)
    | _ => none)

/-- The loop of construction.py lines 74-75: each key/value pair is applied
in dictionary iteration order, rewriting every occurrence of the key in the
current (already partially rewritten) column. -/
def applyMergerPairs (pairs : List (Int × Int)) (col : List Int) : List Int :=
  pairs.foldl (fun c p => c.map (fun x => if x = p.1 then p.2 else x)) col

/-- One derived firm-ID column of `build_id_data` (lines 72-76): a copy of
the baseline column with the merger's pairs applied sequentially. -/
def mergerColumn (base : List Int) : MergerEntry → List Int
  | .dict pairs => applyMergerPairs (toIntPairs pairs) base
  | .nonDict => base

/-- Shallow embedding of `build_id_data` (construction.py lines 58-82). -/
def build_id_data (T J F : Int) (mergers : List MergerEntry) :
    Except BuildError IdData :=
  if T < 1 ∨ F < 1 then .error .invalidArgument
  else if J < F then .error .invalidArgument
  else
    match validateMergers F mergers with
    | some e => .error e
    | none =>
        let base := baseFirmColumn T.toNat J.toNat F.toNat
        .ok { market_ids := repeatRange T.toNat J.toNat,
              firm_ids := base :: mergers.map (mergerColumn base) }

/-- A structured product table as consumed by `build_ownership` and
`build_blp_instruments`. An absent field is `none` (`extract_matrix`, which
lives outside this file's sources, returns `None` for an absent field).
`market_ids` is stored as its column count paired with its first column
(only the column count matters before the one-column validation, only the
first column after it); `firm_ids` is stored as its list of columns, which
is how `build_ownership` iterates it (`firm_ids.T`). -/
structure ProductTable where
  market_ids : Option (Nat × List Int)
  firm_ids : Option (List (List Int))

/-- The `kappa_specification` argument of `build_ownership`: `None`, a
callable (modelled by the rational-valued function of two firm IDs it
computes), or some non-callable object. -/
inductive KappaArg where
  | none
  | callableF (f : Int → Int → ℚ)
  | notCallable

/-- The default cooperation specification of construction.py line 178:
`np.where(f == g, 1, 0)`. -/
def defaultKappa : Int → Int → ℚ := fun f g => if f = g then 1 else 0

/-- `np.unique(market_ids)`: the distinct market IDs in increasing order. -/
def sortedUniqueMarkets (m : List Int) : List Int :=
  m.dedup.insertionSort (· ≤ ·)

/-- `np.unique(market_ids, return_counts=True)[1].max()` (construction.py
line 185): the largest number of products in one market. -/
def maxMarketSize (m : List Int) : Nat :=
  (m.dedup.map (fun t => m.count t)).foldr max 0

/-- `ids[market_ids.flat == t]` (construction.py line 192): the firm IDs of
the products of market `t`, in row order. -/
def selectMarket (m ids : List Int) (t : Int) : List Int :=
  ((m.zip ids).filter (fun p => p.1 = t)).map Prod.snd

/-- One market's block of the ownership stack (construction.py lines
193-195): `J_t` rows of width `J`; entry `(j, k)` is `κ(ids_t[j], ids_t[k])`
for `k < J_t` and the `numpy.nan` sentinel (`none`) beyond. -/
def ownershipBlock (κ : Int → Int → ℚ) (J : Nat) (ids_t : List Int) :
    List (List (Option ℚ)) :=
  ids_t.map (fun fi =>
    (List.range J).map (fun k =>
      if k < ids_t.length then some (κ fi (ids_t.getD k 0)) else Option.none))

/-- `np.vstack(matrices)` for one firm-ID column (construction.py lines
190-197): the per-market blocks stacked vertically in sorted unique
market-ID order. -/
def ownershipStack (κ : Int → Int → ℚ) (m : List Int) (J : Nat)
    (ids : List Int) : List (List (Option ℚ)) :=
  (sortedUniqueMarkets m).flatMap (fun t => ownershipBlock κ J (selectMarket m ids t))

/-- `np.hstack(stacks)` (construction.py line 198): matrices of equal height
concatenated row by row. -/
def hstackAll : List (List (List (Option ℚ))) → List (List (Option ℚ))
  | [] => []
  | [s] => s
  | s :: s2 :: rest => s.zipWith (· ++ ·) (hstackAll (s2 :: rest))

/-- Shallow embedding of `build_ownership` (construction.py lines 166-198). -/
def build_ownership (pd : ProductTable) (ka : KappaArg) :
    Except BuildError (List (List (Option ℚ))) :=
  match pd.market_ids with
  | Option.none => .error .missingField
  | some (mcols, m) =>
      match pd.firm_ids with
      | Option.none => .error .missingField
      | some fcols =>
          if 1 < mcols then .error .invalidShape
          else
            match ka with
            | .notCallable => .error .invalidArgument
            | .none =>
                .ok (hstackAll (fcols.map (ownershipStack defaultKappa m (maxMarketSize m))))
            | .callableF f =>
                .ok (hstackAll (fcols.map (ownershipStack f m (maxMarketSize m))))

/-- Python indexing `firm_ids[:, [firms_index]]` over `k` columns
(construction.py line 272): indices in `0, …, k-1` and `-k, …, -1` resolve
to a column, anything else raises `IndexError`. -/
def resolveIndex (k : Nat) (idx : Int) : Option Nat :=
  if 0 ≤ idx ∧ idx < (k : Int) then some idx.toNat
  else if -(k : Int) ≤ idx ∧ idx < 0 then some ((k : Int) + idx).toNat
  else Option.none

/-- Modelled from the spec: the Grouping Engine (`Groups`, in
`utilities.basics`, outside this file's sources) composed as
`groups.expand(groups.sum(X))` — row `r`, column `c` receives the sum of
`X i c` over all rows `i` whose key equals row `r`'s key (spec sections 4.1
and 8: "`expand(sum(X))[i]` equals the sum of X over all rows sharing row
i's key"). -/
def groupExpandSum {K : Type} [DecidableEq K] (n : Nat) (key : Nat → K)
    (X : Nat → Nat → ℚ) : Nat → Nat → ℚ :=
  fun r c => ∑ i ∈ Finset.range n, if key i = key r then X i c else 0

/-- The market ID of row `i` (rows indexed by position in the single
`market_ids` column). -/
def mktOf (mids : List Int) : Nat → Int := fun i => mids.getD i 0

/-- The firm ID of row `i`, read from column `j` of the `firm_ids` field. -/
def firmOf (fcols : List (List Int)) (j : Nat) : Nat → Int :=
  fun i => (fcols.getD j []).getD i 0

/-- `list(zip(market_ids, firm_ids))` (construction.py lines 275-276): the
composite (market, firm) key of each row. -/
def pairKey (mids : List Int) (fcols : List (List Int)) (j : Nat) :
    Nat → Int × Int :=
  fun i => (mktOf mids i, firmOf fcols j i)

/-- `other = paired_groups.expand(paired_groups.sum(X)) - X`
(construction.py line 284). -/
def otherBlock (n : Nat) (mids : List Int) (fcols : List (List Int)) (j : Nat)
    (X : Nat → Nat → ℚ) : Nat → Nat → ℚ :=
  fun r c => groupExpandSum n (pairKey mids fcols j) X r c - X r c

/-- `rival = market_groups.expand(market_groups.sum(X)) - X - other`
(construction.py line 285). -/
def rivalBlock (n : Nat) (mids : List Int) (fcols : List (List Int)) (j : Nat)
    (X : Nat → Nat → ℚ) : Nat → Nat → ℚ :=
  fun r c => groupExpandSum n (mktOf mids) X r c - X r c
    - otherBlock n mids fcols j X r c

/-- `np.c_[X, other, rival]` (construction.py line 286), as a function of
row and column with `m` the column count of `X`. -/
def blpMatrix (n m : Nat) (mids : List Int) (fcols : List (List Int)) (j : Nat)
    (X : Nat → Nat → ℚ) : Nat → Nat → ℚ :=
  fun r c =>
    if c < m then X r c
    else if c < 2 * m then otherBlock n mids fcols j X r (c - m)
    else rivalBlock n mids fcols j X r (c - 2 * m)

/-- Shallow embedding of `build_blp_instruments` (construction.py lines
263-286). The external Feature Matrix backend is out of scope; its output
`X = build_matrix(formulation, product_data)` (line 283, an `m`-column
matrix whose rows align 1:1 with the table) is taken as an argument. The
column selection at line 272 happens before line 283, so on a bad
`firms_index` the function fails without consulting `X`. -/
def build_blp_instruments (pd : ProductTable) (firms_index : Int) (m : Nat)
    (X : Nat → Nat → ℚ) : Except BuildError (Nat → Nat → ℚ) :=
  match pd.market_ids with
  | Option.none => .error .missingField
  | some (mcols, mids) =>
      match pd.firm_ids with
      | Option.none => .error .missingField
      | some fcols =>
          if 1 < mcols then .error .invalidShape
          else
            match resolveIndex fcols.length firms_index with
            | Option.none => .error .indexError
            | some j => .ok (blpMatrix mids.length m mids fcols j X)

/-- The first argument of `build_matrix`: a `Formulation` instance (modelled
by the backend function `Formulation._build_matrix` it encapsulates, an
out-of-scope external collaborator) or some other object. -/
inductive SpecArg where
  | formulation (backend : ProductTable → List (List ℚ))
  | notFormulation

/-- Shallow embedding of `build_matrix` (construction.py lines 323-325):
an `isinstance` check followed by delegation to the backend. -/
def build_matrix (f : SpecArg) (data : ProductTable) :
    Except BuildError (List (List ℚ)) :=
  match f with
  | .notFormulation => .error .invalidType
  | .formulation backend => .ok (backend data)

/-- Market `t`'s slice of a column of a balanced `T × J` panel: rows
`t * J, …, t * J + J - 1`. -/
def marketBlock (J : Nat) (col : List Int) (t : Nat) : List Int :=
  (col.drop (t * J)).take J

/-- Whether one merger entry passes the validation of construction.py lines
64-68: it is a dict and every key/value pair is an integer firm ID in the
closed range `[0, F-1]`. -/
def mergerWellFormed (F : Int) : MergerEntry → Bool
  | .nonDict => false
  | .dict pairs => pairs.all (validPair F)

/-- The error an ill-formed merger entry triggers: `TypeError` for a
non-dict, `ValueError` for a dict with a bad key/value pair. -/
def mergerErrorKind : MergerEntry → BuildError
  | .nonDict => .invalidType
  | .dict _ => .invalidArgument

/-- The remapping described by the claim (simultaneous, not sequential):
each row whose baseline firm ID is a key of the mapping receives that key's
value, every other row keeps its baseline ID. Stated from the claim's words
for comparison with the sequential `applyMergerPairs` of the source. -/
def specSimultaneousRemap (pairs : List (Int × Int)) (base : List Int) :
    List Int :=
  base.map (fun x => (((pairs.find? (fun p => p.1 == x)).map Prod.snd).getD x))

/-- The cooperation function a given `kappa_specification` argument makes
`build_ownership` use (the identity default for `None`). -/
def kappaFn : KappaArg → (Int → Int → ℚ)
  | .none => defaultKappa
  | .callableF f => f
  | .notCallable => defaultKappa

/-- The number of products of market `t` (`np.unique` counts). -/
def marketSize (m : List Int) (t : Int) : Nat := m.count t

/-- The row at which market number `u` (in sorted unique market-ID order)
starts inside a vertically stacked ownership matrix. -/
def blockOffset (m : List Int) (u : Nat) : Nat :=
  (((sortedUniqueMarkets m).take u).map (marketSize m)).sum

/-- Claim C8: every builder is deterministic — two calls on equal argument
values (with the user-supplied cooperation function and backend modelled by
the functions they compute) return identical outputs. The embedding is pure
by construction; this is faithful because construction.py touches no mutable
global state, performs no I/O and uses no randomness, so its outputs are
functions of the argument values alone. -/
theorem builders_deterministic :
    (∀ (T J F : Int) (ms : List MergerEntry) (T2 J2 F2 : Int)
        (ms2 : List MergerEntry), T = T2 → J = J2 → F = F2 → ms = ms2 →
        build_id_data T J F ms = build_id_data T2 J2 F2 ms2) ∧
    (∀ (pd pd2 : ProductTable) (ka ka2 : KappaArg), pd = pd2 → ka = ka2 →
        build_ownership pd ka = build_ownership pd2 ka2) ∧
    (∀ (pd pd2 : ProductTable) (idx idx2 : Int) (m m2 : Nat)
        (X X2 : Nat → Nat → ℚ), pd = pd2 → idx = idx2 → m = m2 → X = X2 →
        build_blp_instruments pd idx m X =
          build_blp_instruments pd2 idx2 m2 X2) ∧
    (∀ (f f2 : SpecArg) (d d2 : ProductTable), f = f2 → d = d2 →
        build_matrix f d = build_matrix f2 d2) := by
  refine ⟨?_, ?_, ?_, ?_⟩ <;> intros <;> subst_vars <;> rfl

/-- Witness for C8 at concrete inputs. -/
theorem builders_deterministic_witness :
    build_id_data 2 5 4 [] = build_id_data 2 5 4 [] ∧
    build_ownership ⟨some (1, [0]), some [[0]]⟩ KappaArg.none =
      build_ownership ⟨some (1, [0]), some [[0]]⟩ KappaArg.none ∧
    build_blp_instruments ⟨some (1, [0]), some [[0]]⟩ 0 1 (fun _ _ => 0) =
      build_blp_instruments ⟨some (1, [0]), some [[0]]⟩ 0 1 (fun _ _ => 0) ∧
    build_matrix .notFormulation ⟨Option.none, Option.none⟩ =
      build_matrix .notFormulation ⟨Option.none, Option.none⟩ :=
  ⟨builders_deterministic.1 2 5 4 [] 2 5 4 [] rfl rfl rfl rfl,
   builders_deterministic.2.1 _ _ _ _ rfl rfl,
   builders_deterministic.2.2.1 _ _ _ _ _ _ _ _ rfl rfl rfl rfl,
   builders_deterministic.2.2.2 _ _ _ _ rfl rfl⟩

/-- Claim C9: with a `firm_ids` field of `k` columns and a `firms_index`
outside both `0..k-1` and `-k..-1`, `build_blp_instruments` fails with an
`IndexError` — before constructing any instruments (the result does not
depend on the characteristic matrix `X` or its width), and this failure
mode is neither of the two the spec lists for this operation. -/
theorem blp_instruments_bad_firms_index (mcols : Nat) (mids : List Int)
    (fcols : List (List Int)) (idx : Int) (m m2 : Nat) (X X2 : Nat → Nat → ℚ)
    (hshape : mcols ≤ 1)
    (hpos : ¬ (0 ≤ idx ∧ idx < (fcols.length : Int)))
    (hneg : ¬ (-(fcols.length : Int) ≤ idx ∧ idx < 0)) :
    build_blp_instruments ⟨some (mcols, mids), some fcols⟩ idx m X =
      .error .indexError ∧
    build_blp_instruments ⟨some (mcols, mids), some fcols⟩ idx m X =
      build_blp_instruments ⟨some (mcols, mids), some fcols⟩ idx m2 X2 ∧
    BuildError.indexError ≠ .missingField ∧
    BuildError.indexError ≠ .invalidShape := by
  have hres : resolveIndex fcols.length idx = Option.none := by
    simp only [resolveIndex, if_neg hpos, if_neg hneg]
  have hm : ¬ 1 < mcols := by omega
  refine ⟨?_, ?_, by decide, by decide⟩
  · simp [build_blp_instruments, hres, hm]
  · simp [build_blp_instruments, hres, hm]

/-- Witness for C9: two columns, index 5. -/
theorem blp_instruments_bad_firms_index_witness :
    build_blp_instruments ⟨some (1, [0, 0]), some [[3, 4], [3, 3]]⟩ 5 1
        (fun _ _ => 0) = .error .indexError :=
  (blp_instruments_bad_firms_index 1 [0, 0] [[3, 4], [3, 3]] 5 1 2
    (fun _ _ => 0) (fun _ _ => 1) (by decide) (by decide) (by decide)).1

/-- Claim C4: for every product table with valid market-ID and firm-ID
fields, the `[X | other | rival]` matrix of `build_blp_instruments`
satisfies, for every row `r` and characteristic `c`: `other + rival` equals
the market-wide column sum of `X` minus `X[r]`; `other[r]` is the sum of `X`
over rows with the same (market, firm) pair excluding `r` itself; and
`rival[r]` is the sum of `X` over rows of `r`'s market held by a different
firm. The Grouping Engine (`Groups`) is modelled from the spec. -/
theorem blp_instruments_identity (mcols : Nat) (mids : List Int)
    (fcols : List (List Int)) (idx : Int) (m : Nat) (X : Nat → Nat → ℚ)
    (j : Nat) (B : Nat → Nat → ℚ)
    (hj : resolveIndex fcols.length idx = some j)
    (h : build_blp_instruments ⟨some (mcols, mids), some fcols⟩ idx m X = .ok B)
    (r c : Nat) (hr : r < mids.length) (hc : c < m) :
    (B r (m + c) + B r (2 * m + c) =
      (∑ i ∈ Finset.range mids.length,
          if mktOf mids i = mktOf mids r then X i c else 0) - X r c) ∧
    (B r (m + c) =
      ∑ i ∈ (Finset.range mids.length).erase r,
          if mktOf mids i = mktOf mids r ∧ firmOf fcols j i = firmOf fcols j r
          then X i c else 0) ∧
    (B r (2 * m + c) =
      ∑ i ∈ Finset.range mids.length,
          if mktOf mids i = mktOf mids r ∧ firmOf fcols j i ≠ firmOf fcols j r
          then X i c else 0) := by
  have hB : B = blpMatrix mids.length m mids fcols j X := by
    by_cases hm : 1 < mcols
    · simp [build_blp_instruments, hm, hj] at h
    · simp [build_blp_instruments, hm, hj] at h
      exact h.symm
  subst hB
  have hentry_other : blpMatrix mids.length m mids fcols j X r (m + c)
      = otherBlock mids.length mids fcols j X r c := by
    have h1 : ¬ (m + c < m) := by omega
    have h2 : m + c < 2 * m := by omega
    simp [blpMatrix, h1, h2, Nat.add_sub_cancel_left]
  have hentry_rival : blpMatrix mids.length m mids fcols j X r (2 * m + c)
      = rivalBlock mids.length mids fcols j X r c := by
    have h1 : ¬ (2 * m + c < m) := by omega
    have h2 : ¬ (2 * m + c < 2 * m) := by omega
    simp [blpMatrix, h1, h2, Nat.add_sub_cancel_left]
  have hpair : ∀ i, pairKey mids fcols j i = pairKey mids fcols j r ↔
      (mktOf mids i = mktOf mids r ∧ firmOf fcols j i = firmOf fcols j r) := by
    intro i
    simp [pairKey, Prod.ext_iff]
  have hmem : r ∈ Finset.range mids.length := Finset.mem_range.2 hr
  have hsplit := Finset.add_sum_erase (Finset.range mids.length)
      (fun i => if pairKey mids fcols j i = pairKey mids fcols j r
                then X i c else 0) hmem
  have hother : otherBlock mids.length mids fcols j X r c
      = ∑ i ∈ (Finset.range mids.length).erase r,
          if mktOf mids i = mktOf mids r ∧ firmOf fcols j i = firmOf fcols j r
          then X i c else 0 := by
    have hexp : groupExpandSum mids.length (pairKey mids fcols j) X r c
        = X r c + ∑ i ∈ (Finset.range mids.length).erase r,
            if pairKey mids fcols j i = pairKey mids fcols j r
            then X i c else 0 := by
      rw [groupExpandSum, ← hsplit]
      simp
    rw [otherBlock, hexp, add_sub_cancel_left]
    exact Finset.sum_congr rfl (fun i _ => by rw [if_congr (hpair i) rfl rfl])
  have hrival : rivalBlock mids.length mids fcols j X r c
      = ∑ i ∈ Finset.range mids.length,
          if mktOf mids i = mktOf mids r ∧ firmOf fcols j i ≠ firmOf fcols j r
          then X i c else 0 := by
    have hdiff : rivalBlock mids.length mids fcols j X r c
        = groupExpandSum mids.length (mktOf mids) X r c
          - groupExpandSum mids.length (pairKey mids fcols j) X r c := by
      rw [rivalBlock, otherBlock]
      ring
    rw [hdiff, groupExpandSum, groupExpandSum, ← Finset.sum_sub_distrib]
    refine Finset.sum_congr rfl (fun i _ => ?_)
    rw [if_congr (hpair i) rfl rfl]
    by_cases hA : mktOf mids i = mktOf mids r
    · by_cases hB2 : firmOf fcols j i = firmOf fcols j r
      · simp [hA, hB2]
      · simp [hA, hB2]
    · simp [hA]
  refine ⟨?_, by rw [hentry_other, hother], by rw [hentry_rival, hrival]⟩
  rw [hentry_other, hentry_rival, rivalBlock, otherBlock, groupExpandSum,
    groupExpandSum]
  ring

/-- Witness for C4: a concrete 4-row table with two markets. -/
theorem blp_instruments_identity_witness :
    (blpMatrix 4 1 [0, 0, 0, 1] [[7, 7, 8, 7]] 0 (fun i _ => (i : ℚ)) 0 (1 + 0)
        + blpMatrix 4 1 [0, 0, 0, 1] [[7, 7, 8, 7]] 0 (fun i _ => (i : ℚ)) 0
            (2 * 1 + 0) =
      (∑ i ∈ Finset.range ([0, 0, 0, 1] : List Int).length,
          if mktOf [0, 0, 0, 1] i = mktOf [0, 0, 0, 1] 0
          then ((i : ℚ)) else 0) - ((0 : Nat) : ℚ)) ∧
    (blpMatrix 4 1 [0, 0, 0, 1] [[7, 7, 8, 7]] 0 (fun i _ => (i : ℚ)) 0 (1 + 0)
      = ∑ i ∈ (Finset.range ([0, 0, 0, 1] : List Int).length).erase 0,
          if mktOf [0, 0, 0, 1] i = mktOf [0, 0, 0, 1] 0 ∧
             firmOf [[7, 7, 8, 7]] 0 i = firmOf [[7, 7, 8, 7]] 0 0
          then ((i : ℚ)) else 0) ∧
    (blpMatrix 4 1 [0, 0, 0, 1] [[7, 7, 8, 7]] 0 (fun i _ => (i : ℚ)) 0
        (2 * 1 + 0)
      = ∑ i ∈ Finset.range ([0, 0, 0, 1] : List Int).length,
          if mktOf [0, 0, 0, 1] i = mktOf [0, 0, 0, 1] 0 ∧
             firmOf [[7, 7, 8, 7]] 0 i ≠ firmOf [[7, 7, 8, 7]] 0 0
          then ((i : ℚ)) else 0) :=
  blp_instruments_identity 1 [0, 0, 0, 1] [[7, 7, 8, 7]] 0 1
    (fun i _ => (i : ℚ)) 0
    (blpMatrix 4 1 [0, 0, 0, 1] [[7, 7, 8, 7]] 0 (fun i _ => (i : ℚ)))
    rfl rfl 0 0 (by decide) (by decide)

/-- Claim C7 counterexample: with the `firm_ids` field absent and a
non-callable cooperation argument, `build_ownership` raises MissingField,
not InvalidArgument — so the claimed biconditional "raises InvalidArgument
if and only if the cooperation-function argument is neither None nor
callable" is false (a missing field masks the later check). -/
theorem build_ownership_invalid_kappa_masked :
    build_ownership ⟨some (1, [0]), Option.none⟩ .notCallable =
      .error .missingField ∧
    (KappaArg.notCallable = KappaArg.notCallable) ∧
    build_ownership ⟨some (1, [0]), Option.none⟩ .notCallable ≠
      .error .invalidArgument :=
  ⟨rfl, rfl, fun hEq => by simp [build_ownership] at hEq⟩

/-- Claim C7 (amended): `build_ownership` validates in the order
market_ids-presence, firm_ids-presence, market_ids-shape, cooperation
argument, an earlier failure masking later ones: MissingField iff a field
is absent; InvalidShape iff both fields are present and `market_ids` has
more than one column; InvalidArgument iff both fields are present,
`market_ids` has one column and the cooperation argument is neither None
nor callable. The identity default is used only when the argument is
exactly None (the call then behaves exactly as with the identity function
passed callably), and no output is produced with an invalid cooperation
argument. -/
theorem build_ownership_error_taxonomy (pd : ProductTable) (ka : KappaArg) :
    (build_ownership pd ka = .error .missingField ↔
      (pd.market_ids = Option.none ∨ pd.firm_ids = Option.none)) ∧
    (build_ownership pd ka = .error .invalidShape ↔
      ((∃ c mcol, pd.market_ids = some (c, mcol) ∧ 1 < c) ∧
        pd.firm_ids ≠ Option.none)) ∧
    (build_ownership pd ka = .error .invalidArgument ↔
      ((∃ c mcol, pd.market_ids = some (c, mcol) ∧ c ≤ 1) ∧
        pd.firm_ids ≠ Option.none ∧ ka = .notCallable)) ∧
    (build_ownership pd KappaArg.none =
      build_ownership pd (.callableF defaultKappa)) ∧
    (∀ M, build_ownership pd ka = .ok M → ka ≠ .notCallable) := by
  obtain ⟨mi, fi⟩ := pd
  cases mi with
  | none => simp [build_ownership]
  | some p =>
      obtain ⟨c, mcol⟩ := p
      cases fi with
      | none => simp [build_ownership]
      | some fcols =>
          by_cases hc : 1 < c
          · cases ka <;> simp [build_ownership, hc]
          · have hc2 : c ≤ 1 := by omega
            cases ka <;> simp [build_ownership, hc, hc2, kappaFn]

/-- Witness for C7: the characterization applied to a concrete table with a
two-column `market_ids` field. -/
theorem build_ownership_error_taxonomy_witness :
    build_ownership ⟨some (2, [0, 1]), some [[3, 3]]⟩ KappaArg.none =
      .error .invalidShape :=
  (build_ownership_error_taxonomy ⟨some (2, [0, 1]), some [[3, 3]]⟩
      KappaArg.none).2.1.mpr
    ⟨⟨2, [0, 1], rfl, by decide⟩, by simp⟩

theorem validateMergers_eq_none_iff (F : Int) (ms : List MergerEntry) :
    validateMergers F ms = Option.none ↔
      ∀ e ∈ ms, mergerWellFormed F e = true := by
  induction ms with
  | nil => simp [validateMergers]
  | cons e rest ih =>
      cases e with
      | nonDict => simp [validateMergers, mergerWellFormed]
      | dict pairs =>
          by_cases hp : pairs.all (validPair F)
          · simp [validateMergers, hp, mergerWellFormed, ih]
          · simp [validateMergers, hp, mergerWellFormed]

theorem validateMergers_first_bad (F : Int) (pre : List MergerEntry)
    (en : MergerEntry) (post : List MergerEntry)
    (hpre : ∀ e ∈ pre, mergerWellFormed F e = true)
    (hen : mergerWellFormed F en = false) :
    validateMergers F (pre ++ en :: post) = some (mergerErrorKind en) := by
  induction pre with
  | nil =>
      cases en with
      | nonDict => simp [validateMergers, mergerErrorKind]
      | dict pairs =>
          have hp : ¬ pairs.all (validPair F) := by
            simpa [mergerWellFormed] using hen
          simp [validateMergers, hp, mergerErrorKind]
  | cons e pre ih =>
      have he := hpre e (by simp)
      cases e with
      | nonDict => simp [mergerWellFormed] at he
      | dict pairs =>
          have hp : pairs.all (validPair F) := by
            simpa [mergerWellFormed] using he
          simpa [validateMergers, hp] using
            ih (fun e2 h2 => hpre e2 (by simp [h2]))

theorem validateMergers_some_exists (F : Int) (ms : List MergerEntry)
    (e : BuildError) (h : validateMergers F ms = some e) :
    ∃ en ∈ ms, mergerWellFormed F en = false := by
  by_contra hall
  push_neg at hall
  have hnone : validateMergers F ms = Option.none :=
    (validateMergers_eq_none_iff F ms).2
      (fun en hen => by simpa using hall en hen)
  simp [hnone] at h

theorem repeatRange_length (T J : Nat) : (repeatRange T J).length = T * J := by
  rw [repeatRange, List.length_flatMap]
  have hconst : ∀ t ∈ List.range T,
      (List.length ∘ fun t : Nat => List.replicate J ((t : Nat) : Int)) t =
        (fun _ : Nat => J) t := fun t _ => by simp
  rw [List.map_congr_left hconst, List.map_const', List.length_range,
    List.sum_replicate, smul_eq_mul]

theorem build_id_data_ok_inv (T J F : Int) (ms : List MergerEntry)
    (d : IdData) (h : build_id_data T J F ms = .ok d) :
    1 ≤ T ∧ 1 ≤ F ∧ F ≤ J ∧ validateMergers F ms = Option.none ∧
    d = ⟨repeatRange T.toNat J.toNat,
         baseFirmColumn T.toNat J.toNat F.toNat ::
           ms.map (mergerColumn (baseFirmColumn T.toNat J.toNat F.toNat))⟩ := by
  unfold build_id_data at h
  by_cases h1 : T < 1 ∨ F < 1
  · simp [h1] at h
  · by_cases h2 : J < F
    · simp [h1, h2] at h
    · cases hv : validateMergers F ms with
      | some e => simp [h1, h2, hv] at h
      | none =>
          simp [h1, h2, hv] at h
          exact ⟨by omega, by omega, by omega, rfl, h.symm⟩

/-- Claim C3 counterexample: with F = 2, the merger {1: 1} uses firm ID
F - 1 = 1, which the claimed half-open range [0, F-1) excludes, yet
`build_id_data` raises nothing and succeeds: the source's range check is
the closed interval [0, F-1]. -/
theorem build_id_data_closed_range_counterexample :
    build_id_data 1 2 2 [.dict [(.int 1, .int 1)]] =
      .ok { market_ids := [0, 0], firm_ids := [[0, 1], [0, 1]] } ∧
    ¬ ((0 : Int) ≤ 1 ∧ (1 : Int) < 2 - 1) :=
  ⟨rfl, by decide⟩

/-- Claim C3 (amended): `build_id_data` fails exactly when T < 1, F < 1,
J < F, or some merger entry is ill-formed — not a mapping, or holding a
key/value that is not an integer in the closed range [0, F-1]. The bound
checks are performed first and raise InvalidArgument; otherwise the first
ill-formed merger entry (scanned left to right) determines the error:
InvalidType when it is not a mapping, InvalidArgument when it holds a bad
key/value. On success the output has T·J rows and its market-ID column
block-repeats 0..T-1, J times each. -/
theorem build_id_data_error_taxonomy (T J F : Int)
    (mergers : List MergerEntry) :
    ((∃ e, build_id_data T J F mergers = .error e) ↔
      (T < 1 ∨ F < 1 ∨ J < F ∨
        ∃ en ∈ mergers, mergerWellFormed F en = false)) ∧
    ((T < 1 ∨ F < 1 ∨ J < F) →
      build_id_data T J F mergers = .error .invalidArgument) ∧
    (∀ pre en post, mergers = pre ++ en :: post →
      (∀ e2 ∈ pre, mergerWellFormed F e2 = true) →
      mergerWellFormed F en = false → ¬ (T < 1 ∨ F < 1 ∨ J < F) →
      build_id_data T J F mergers = .error (mergerErrorKind en)) ∧
    (∀ d, build_id_data T J F mergers = .ok d →
      d.market_ids.length = T.toNat * J.toNat ∧
      d.market_ids =
        (List.range T.toNat).flatMap
          (fun t => List.replicate J.toNat ((t : Nat) : Int))) := by
  have hbounds : (T < 1 ∨ F < 1 ∨ J < F) →
      build_id_data T J F mergers = .error .invalidArgument := by
    intro hb
    by_cases h1 : T < 1 ∨ F < 1
    · simp [build_id_data, h1]
    · have h2 : J < F := by omega
      simp [build_id_data, h1, h2]
  refine ⟨⟨?_, ?_⟩, hbounds, ?_, ?_⟩
  · rintro ⟨e, he⟩
    by_cases h1 : T < 1 ∨ F < 1
    · rcases h1 with h | h
      · exact Or.inl h
      · exact Or.inr (Or.inl h)
    · by_cases h2 : J < F
      · exact Or.inr (Or.inr (Or.inl h2))
      · cases hv : validateMergers F mergers with
        | some e2 =>
            exact Or.inr (Or.inr (Or.inr
              (validateMergers_some_exists F mergers e2 hv)))
        | none => simp [build_id_data, h1, h2, hv] at he
  · intro hcond
    by_cases hb : T < 1 ∨ F < 1 ∨ J < F
    · exact ⟨.invalidArgument, hbounds hb⟩
    · have h1 : ¬ (T < 1 ∨ F < 1) := by omega
      have h2 : ¬ J < F := by omega
      obtain ⟨en, hen, hbad⟩ : ∃ en ∈ mergers, mergerWellFormed F en = false := by
        rcases hcond with h | h | h | h
        · omega
        · omega
        · omega
        · exact h
      cases hv : validateMergers F mergers with
      | some e2 => exact ⟨e2, by simp [build_id_data, h1, h2, hv]⟩
      | none =>
          have := (validateMergers_eq_none_iff F mergers).1 hv en hen
          simp [hbad] at this
  · intro pre en post heq hpre hbad hb
    subst heq
    have hv := validateMergers_first_bad F pre en post hpre hbad
    have h1 : ¬ (T < 1 ∨ F < 1) := by omega
    have h2 : ¬ J < F := by omega
    simp [build_id_data, h1, h2, hv]
  · intro d hd
    obtain ⟨-, -, -, -, hde⟩ := build_id_data_ok_inv T J F mergers d hd
    subst hde
    exact ⟨repeatRange_length T.toNat J.toNat, rfl⟩

/-- Witness for C3: the bound-check branch at T = 0. -/
theorem build_id_data_error_taxonomy_witness :
    build_id_data 0 3 1 [] = .error .invalidArgument :=
  (build_id_data_error_taxonomy 0 3 1 []).2.1 (Or.inl (by decide))

theorem toIntPairs_map_int (pairs : List (Int × Int)) :
    toIntPairs (pairs.map (fun p => (PyVal.int p.1, PyVal.int p.2))) = pairs := by
  induction pairs with
  | nil => rfl
  | cons p ps ih => simp [toIntPairs] at ih ⊢; exact ih

theorem applyMergerPairs_eq_simultaneous (pairs : List (Int × Int))
    (hchain : pairs.Pairwise (fun p q => p.2 ≠ q.1)) (base : List Int) :
    applyMergerPairs pairs base = specSimultaneousRemap pairs base := by
  induction pairs generalizing base with
  | nil => simp [applyMergerPairs, specSimultaneousRemap]
  | cons p ps ih =>
      obtain ⟨hhead, htail⟩ := List.pairwise_cons.1 hchain
      have step : applyMergerPairs (p :: ps) base =
          applyMergerPairs ps
            (base.map (fun x => if x = p.1 then p.2 else x)) := rfl
      rw [step, ih htail, specSimultaneousRemap, specSimultaneousRemap,
        List.map_map]
      refine List.map_congr_left (fun x _ => ?_)
      by_cases hx : x = p.1
      · subst hx
        have hfind : (p :: ps).find? (fun q => q.1 == p.1) = some p :=
          List.find?_cons_of_pos _ (by simp)
        have hnone : ps.find? (fun q => q.1 == p.2) = Option.none :=
          List.find?_eq_none.2 (fun q hq => by
            simp only [beq_iff_eq]
            exact fun h2 => hhead q hq h2.symm)
        simp [Function.comp, hfind, hnone]
      · have hfind : (p :: ps).find? (fun q => q.1 == x) =
            ps.find? (fun q => q.1 == x) :=
          List.find?_cons_of_neg _ (by
            simp only [beq_iff_eq]
            exact fun h2 => hx h2.symm)
        simp [Function.comp, hx, hfind]

/-- Claim C2 counterexample: the two-key merger {0: 1, 1: 0} on a baseline
[0, 1] column. Simultaneous remapping (the claim) would give [1, 0]; the
source applies the pairs sequentially, so 0 → 1 is then undone by 1 → 0 and
the derived column is [0, 0]: rows whose baseline ID is the key 0 do not
end with the mapped value 1. -/
theorem build_id_data_merger_chaining_counterexample :
    build_id_data 1 2 2 [.dict [(.int 0, .int 1), (.int 1, .int 0)]] =
      .ok { market_ids := [0, 0], firm_ids := [[0, 1], [0, 0]] } ∧
    specSimultaneousRemap [(0, 1), (1, 0)] [0, 1] = [1, 0] ∧
    ([0, 0] : List Int) ≠ [1, 0] :=
  ⟨rfl, rfl, by decide⟩

/-- Claim C2 (amended): the derived firm-ID column applies the merger's
key → value pairs sequentially in dictionary iteration order, so an earlier
replacement can be re-replaced by a later key; whenever no mapped value
equals a later key of the same merger (in particular for every single-key
merger), the derived column is exactly the claim's simultaneous remap:
rows whose baseline ID is a key receive that key's value, all other rows
keep their baseline ID. -/
theorem build_id_data_merger_columns (T J F : Int)
    (ms : List (List (Int × Int))) (d : IdData)
    (hchain : ∀ pairs ∈ ms, pairs.Pairwise (fun p q => p.2 ≠ q.1))
    (h : build_id_data T J F
        (ms.map (fun pairs =>
          MergerEntry.dict
            (pairs.map (fun p => (PyVal.int p.1, PyVal.int p.2))))) = .ok d) :
    d.firm_ids = baseFirmColumn T.toNat J.toNat F.toNat ::
      ms.map (fun pairs =>
        specSimultaneousRemap pairs (baseFirmColumn T.toNat J.toNat F.toNat))
    := by
  obtain ⟨-, -, -, -, hde⟩ := build_id_data_ok_inv T J F _ d h
  subst hde
  simp only [List.map_map]
  refine congrArg _ (List.map_congr_left (fun pairs hp => ?_))
  show mergerColumn _ (MergerEntry.dict
      (pairs.map (fun p => (PyVal.int p.1, PyVal.int p.2)))) = _
  rw [mergerColumn, toIntPairs_map_int]
  exact applyMergerPairs_eq_simultaneous pairs (hchain pairs hp) _

/-- Witness for C2: the spec's own example T=2, J=5, F=4, merger {2: 0}. -/
theorem build_id_data_merger_columns_witness :
    ({ market_ids := [0, 0, 0, 0, 0, 1, 1, 1, 1, 1],
       firm_ids := [[0, 0, 1, 2, 3, 0, 0, 1, 2, 3],
                    [0, 0, 1, 0, 3, 0, 0, 1, 0, 3]] } : IdData).firm_ids =
      baseFirmColumn 2 5 4 ::
        [[((2 : Int), (0 : Int))]].map
          (fun pairs => specSimultaneousRemap pairs (baseFirmColumn 2 5 4)) :=
  build_id_data_merger_columns 2 5 4 [[(2, 0)]] _
    (by intro pairs hp; simp at hp; subst hp; simp) rfl

theorem mem_baseFirmColumn_bounds (T J F : Nat) (hF : 0 < F) (_hJF : F ≤ J) :
    ∀ v ∈ baseFirmColumn T J F, 0 ≤ v ∧ v ≤ (F : Int) - 1 := by
  intro v hv
  simp only [baseFirmColumn, tileRange, List.mem_map] at hv
  obtain ⟨j, hj, rfl⟩ := hv
  obtain ⟨l, hl, hjl⟩ := List.mem_flatten.1 hj
  have hlr : l = List.range J := List.eq_of_mem_replicate hl
  subst hlr
  have hjJ : j < J := List.mem_range.1 hjl
  have hJ : 0 < J := by omega
  have hdiv : j * F / J < F := by
    rw [Nat.div_lt_iff_lt_mul hJ]
    calc j * F < J * F := by
          exact Nat.mul_lt_mul_of_lt_of_le hjJ (le_refl F) hF
      _ = F * J := Nat.mul_comm J F
  have hcast : ((j * F / J : Nat) : Int) < (F : Int) := by exact_mod_cast hdiv
  constructor
  · exact Int.natCast_nonneg _
  · omega

theorem applyMergerPairs_bounds (F : Int) (pairs : List (Int × Int))
    (base : List Int)
    (hpairs : ∀ p ∈ pairs, 0 ≤ p.2 ∧ p.2 ≤ F - 1)
    (hbase : ∀ v ∈ base, 0 ≤ v ∧ v ≤ F - 1) :
    ∀ v ∈ applyMergerPairs pairs base, 0 ≤ v ∧ v ≤ F - 1 := by
  induction pairs generalizing base with
  | nil => simpa [applyMergerPairs] using hbase
  | cons p ps ih =>
      have step : applyMergerPairs (p :: ps) base =
          applyMergerPairs ps
            (base.map (fun x => if x = p.1 then p.2 else x)) := rfl
      rw [step]
      refine ih _ (fun q hq => hpairs q (List.mem_cons_of_mem p hq)) ?_
      intro v hv
      obtain ⟨x, hx, rfl⟩ := List.mem_map.1 hv
      by_cases hxp : x = p.1
      · simpa [hxp] using hpairs p (by simp)
      · simpa [hxp] using hbase x hx

theorem validated_pairs_bounds (F : Int) (pvs : List (PyVal × PyVal))
    (hall : pvs.all (validPair F) = true) :
    ∀ q ∈ toIntPairs pvs, (0 ≤ q.1 ∧ q.1 ≤ F - 1) ∧
      (0 ≤ q.2 ∧ q.2 ≤ F - 1) := by
  intro q hq
  simp only [toIntPairs, List.mem_filterMap] at hq
  obtain ⟨p, hp, hmatch⟩ := hq
  have hvalid := List.all_eq_true.1 hall p hp
  obtain ⟨a, b⟩ := p
  cases a with
  | nonInt => simp at hmatch
  | int na =>
      cases b with
      | nonInt => simp at hmatch
      | int nb =>
          simp only [Option.some.injEq] at hmatch
          subst hmatch
          simp only [validPair, Bool.and_eq_true, decide_eq_true_eq] at hvalid
          exact ⟨⟨hvalid.1.1, hvalid.1.2⟩, ⟨hvalid.2.1, hvalid.2.2⟩⟩

/-- Claim C10: every value of every firm-ID column of a successful
`build_id_data` call — the baseline and every merger-derived column — is an
integer in the closed range [0, F-1]: the baseline by construction, the
derived columns because merger replacement only writes validated merger
values over baseline values. -/
theorem build_id_data_firm_ids_range (T J F : Int) (ms : List MergerEntry)
    (d : IdData) (h : build_id_data T J F ms = .ok d) :
    ∀ col ∈ d.firm_ids, ∀ v ∈ col, 0 ≤ v ∧ v ≤ F - 1 := by
  obtain ⟨hT, hF, hJF, hval, hde⟩ := build_id_data_ok_inv T J F ms d h
  subst hde
  have hFn : 0 < F.toNat := by omega
  have hJFn : F.toNat ≤ J.toNat := by omega
  have hcast : ((F.toNat : Nat) : Int) = F := Int.toNat_of_nonneg (by omega)
  have hbase : ∀ v ∈ baseFirmColumn T.toNat J.toNat F.toNat,
      0 ≤ v ∧ v ≤ F - 1 := by
    intro v hv
    have := mem_baseFirmColumn_bounds T.toNat J.toNat F.toNat hFn hJFn v hv
    rwa [hcast] at this
  intro col hcol
  rcases List.mem_cons.1 hcol with rfl | hcol2
  · exact hbase
  · obtain ⟨e, he, hcole⟩ := List.mem_map.1 hcol2
    cases e with
    | nonDict =>
        rw [mergerColumn] at hcole
        subst hcole
        exact hbase
    | dict pvs =>
        rw [mergerColumn] at hcole
        subst hcole
        have hwf := (validateMergers_eq_none_iff F ms).1 hval _ he
        have hall : pvs.all (validPair F) = true := by
          simpa [mergerWellFormed] using hwf
        exact applyMergerPairs_bounds F (toIntPairs pvs) _
          (fun p hp => (validated_pairs_bounds F pvs hall p hp).2) hbase

/-- Witness for C10: the merged column of the spec's example contains 3,
which lies in [0, 3]. -/
theorem build_id_data_firm_ids_range_witness :
    (0 : Int) ≤ 3 ∧ (3 : Int) ≤ 4 - 1 :=
  build_id_data_firm_ids_range 2 5 4 [.dict [(.int 2, .int 0)]]
    { market_ids := [0, 0, 0, 0, 0, 1, 1, 1, 1, 1],
      firm_ids := [[0, 0, 1, 2, 3, 0, 0, 1, 2, 3],
                   [0, 0, 1, 0, 3, 0, 0, 1, 0, 3]] } rfl
    [0, 0, 1, 0, 3, 0, 0, 1, 0, 3] (by simp) 3 (by simp)

theorem ceil_div_le_iff (F x j : Nat) (hF : 0 < F) :
    (x + F - 1) / F ≤ j ↔ x ≤ j * F := by
  rw [Nat.div_le_iff_le_mul_add_pred hF, Nat.mul_comm F j]
  omega

theorem lt_ceil_div_iff (F x j : Nat) (hF : 0 < F) :
    j < (x + F - 1) / F ↔ j * F < x := by
  have h := ceil_div_le_iff F x j hF
  omega

theorem countP_range_interval (p : Nat → Bool) (a b : Nat)
    (hp : ∀ j, p j = true ↔ (a ≤ j ∧ j < b)) :
    ∀ J, (List.range J).countP p = min b J - min a J := by
  intro J
  induction J with
  | zero => simp
  | succ J ih =>
      rw [List.range_succ, List.countP_append, ih]
      by_cases hJ : p J
      · have hab := (hp J).1 hJ
        simp [List.countP_cons, hJ]
        omega
      · have hab : ¬ (a ≤ J ∧ J < b) := fun hc => by
          rw [(hp J).2 hc] at hJ
          exact hJ rfl
        simp [List.countP_cons, hJ]
        omega

theorem baseline_market_count (J F f : Nat) (hJ : 0 < J) (hF : 0 < F) :
    (List.range J).countP
        (fun j => ((j * F / J : Nat) : Int) == ((f : Nat) : Int)) =
      min (((f + 1) * J + F - 1) / F) J - min ((f * J + F - 1) / F) J := by
  apply countP_range_interval
  intro j
  simp only [beq_iff_eq, Nat.cast_inj]
  have h1 : f ≤ j * F / J ↔ f * J ≤ j * F := Nat.le_div_iff_mul_le hJ
  have h2 : j * F / J < f + 1 ↔ j * F < (f + 1) * J := Nat.div_lt_iff_lt_mul hJ
  have h3 : (f * J + F - 1) / F ≤ j ↔ f * J ≤ j * F := ceil_div_le_iff F _ j hF
  have h4 : j < ((f + 1) * J + F - 1) / F ↔ j * F < (f + 1) * J :=
    lt_ceil_div_iff F _ j hF
  omega

theorem baseline_count_floor_ceil (J F f : Nat) (hF : 0 < F) (hJF : F ≤ J)
    (hf : f < F) :
    1 ≤ (List.range J).countP
        (fun j => ((j * F / J : Nat) : Int) == ((f : Nat) : Int)) ∧
    ((List.range J).countP
        (fun j => ((j * F / J : Nat) : Int) == ((f : Nat) : Int)) = J / F ∨
     (List.range J).countP
        (fun j => ((j * F / J : Nat) : Int) == ((f : Nat) : Int)) =
       (J + F - 1) / F) := by
  have hJ : 0 < J := lt_of_lt_of_le hF hJF
  rw [baseline_market_count J F f hJ hF]
  have hbJ : ((f + 1) * J + F - 1) / F ≤ J := by
    rw [ceil_div_le_iff _ _ _ hF]
    calc (f + 1) * J ≤ F * J := Nat.mul_le_mul_right J (by omega)
      _ = J * F := Nat.mul_comm F J
  have hlow : (f * J + F - 1) / F + J / F ≤ ((f + 1) * J + F - 1) / F := by
    have hstep : (f * J + F - 1 + J / F * F) / F =
        (f * J + F - 1) / F + J / F := Nat.add_mul_div_right _ _ hF
    rw [← hstep]
    apply Nat.div_le_div_right
    have hJFle : J / F * F ≤ J := Nat.div_mul_le_self J F
    have hexp : (f + 1) * J = f * J + J := by ring
    omega
  have hhigh : ((f + 1) * J + F - 1) / F ≤
      (f * J + F - 1) / F + (J + F - 1) / F := by
    have hceil : J ≤ (J + F - 1) / F * F :=
      (ceil_div_le_iff F J ((J + F - 1) / F) hF).1 (le_refl _)
    have hstep : (f * J + F - 1 + (J + F - 1) / F * F) / F =
        (f * J + F - 1) / F + (J + F - 1) / F := Nat.add_mul_div_right _ _ hF
    rw [← hstep]
    apply Nat.div_le_div_right
    have hexp : (f + 1) * J = f * J + J := by ring
    omega
  have hceil_floor : (J + F - 1) / F ≤ J / F + 1 := by
    have h1 : (J + F) / F = J / F + 1 := Nat.add_div_right J hF
    have h2 : (J + F - 1) / F ≤ (J + F) / F := Nat.div_le_div_right (by omega)
    omega
  have hfloor1 : 1 ≤ J / F := (Nat.one_le_div_iff hF).2 hJF
  have hflc : J / F ≤ (J + F - 1) / F := Nat.div_le_div_right (by omega)
  omega

theorem drop_flatten_replicate {α : Type} (l : List α) :
    ∀ (t T : Nat), t ≤ T →
      ((List.replicate T l).flatten).drop (t * l.length) =
        (List.replicate (T - t) l).flatten := by
  intro t
  induction t with
  | zero => intro T _; simp
  | succ t ih =>
      intro T hT
      cases T with
      | zero => omega
      | succ T2 =>
          rw [List.replicate_succ, List.flatten_cons,
            show (t + 1) * l.length = l.length + t * l.length by ring,
            List.drop_append, ih T2 (by omega), Nat.succ_sub_succ]

theorem marketBlock_baseFirmColumn (T J F t : Nat) (ht : t < T) (_hJ : 0 < J) :
    marketBlock J (baseFirmColumn T J F) t =
      (List.range J).map (fun j => ((j * F / J : Nat) : Int)) := by
  have hmap : baseFirmColumn T J F =
      (List.replicate T
        ((List.range J).map (fun j => ((j * F / J : Nat) : Int)))).flatten := by
    rw [baseFirmColumn, tileRange, List.map_flatten, List.map_replicate]
  rw [hmap]
  simp only [marketBlock]
  set blk := (List.range J).map (fun j => ((j * F / J : Nat) : Int))
    with hblkdef
  have hlen : blk.length = J := by rw [hblkdef]; simp
  rw [show t * J = t * blk.length by rw [hlen],
    drop_flatten_replicate blk t T (le_of_lt ht),
    show T - t = (T - t - 1) + 1 by omega,
    List.replicate_succ, List.flatten_cons,
    show J = blk.length from hlen.symm]
  exact List.take_left _ _

/-- Claim C1 counterexample: with J = 7 products and F = 5 firms the
baseline assignment is [0, 0, 1, 2, 2, 3, 4]: firm 1 receives one product
while the larger-ID firm 2 receives two, refuting "the firms with smaller
IDs receive the remainder products (no firm has fewer products than any
firm with a larger ID)". -/
theorem build_id_data_remainder_not_smallest :
    build_id_data 1 7 5 [] =
      .ok { market_ids := [0, 0, 0, 0, 0, 0, 0],
            firm_ids := [[0, 0, 1, 2, 2, 3, 4]] } ∧
    ([0, 0, 1, 2, 2, 3, 4] : List Int).count 1 <
      ([0, 0, 1, 2, 2, 3, 4] : List Int).count 2 :=
  ⟨rfl, by decide⟩

/-- Claim C1 (amended): for every successful `build_id_data` call, the
baseline firm-ID column assigns, within each market, every firm ID in
0..F-1 to at least one product, each firm's product count in a market is
⌊J/F⌋ or ⌈J/F⌉, and the baseline column is identical across all T markets.
(The source distributes the remainder by `floor(j * F / J)`, which does not
always favour the smaller firm IDs.) -/
theorem build_id_data_baseline_distribution (T J F : Int)
    (ms : List MergerEntry) (d : IdData) (base : List Int)
    (h : build_id_data T J F ms = .ok d)
    (hbase : d.firm_ids.head? = some base) :
    (∀ t : Nat, (t : Int) < T →
      marketBlock J.toNat base t = marketBlock J.toNat base 0) ∧
    (∀ t : Nat, (t : Int) < T → ∀ f : Nat, (f : Int) < F →
      1 ≤ (marketBlock J.toNat base t).count ((f : Nat) : Int) ∧
      ((marketBlock J.toNat base t).count ((f : Nat) : Int) =
          J.toNat / F.toNat ∨
       (marketBlock J.toNat base t).count ((f : Nat) : Int) =
          (J.toNat + F.toNat - 1) / F.toNat)) := by
  obtain ⟨hT, hF, hJF, -, hde⟩ := build_id_data_ok_inv T J F ms d h
  subst hde
  have hbase2 : base = baseFirmColumn T.toNat J.toNat F.toNat := by
    simpa using hbase.symm
  subst hbase2
  have hJ : 0 < J.toNat := by omega
  have hFn : 0 < F.toNat := by omega
  have hJFn : F.toNat ≤ J.toNat := by omega
  have hblk : ∀ t : Nat, (t : Int) < T →
      marketBlock J.toNat (baseFirmColumn T.toNat J.toNat F.toNat) t =
        (List.range J.toNat).map
          (fun j => ((j * F.toNat / J.toNat : Nat) : Int)) := by
    intro t ht
    exact marketBlock_baseFirmColumn T.toNat J.toNat F.toNat t (by omega) hJ
  refine ⟨fun t ht => by rw [hblk t ht, hblk 0 (by omega)], ?_⟩
  intro t ht f hf
  rw [hblk t ht]
  have hcount : ((List.range J.toNat).map
      (fun j => ((j * F.toNat / J.toNat : Nat) : Int))).count
        ((f : Nat) : Int) =
      (List.range J.toNat).countP
        (fun j => ((j * F.toNat / J.toNat : Nat) : Int) == ((f : Nat) : Int))
      := by
    rw [List.count_eq_countP, List.countP_map]
    rfl
  rw [hcount]
  exact baseline_count_floor_ceil J.toNat F.toNat f hFn hJFn (by omega)

/-- Witness for C1 at T = 1, J = 7, F = 5, firm 2, market 0. -/
theorem build_id_data_baseline_distribution_witness :
    1 ≤ (marketBlock (7 : Int).toNat [0, 0, 1, 2, 2, 3, 4] 0).count
        ((2 : Nat) : Int) ∧
    ((marketBlock (7 : Int).toNat [0, 0, 1, 2, 2, 3, 4] 0).count
        ((2 : Nat) : Int) = (7 : Int).toNat / (5 : Int).toNat ∨
     (marketBlock (7 : Int).toNat [0, 0, 1, 2, 2, 3, 4] 0).count
        ((2 : Nat) : Int) =
       ((7 : Int).toNat + (5 : Int).toNat - 1) / (5 : Int).toNat) :=
  (build_id_data_baseline_distribution 1 7 5 []
      { market_ids := [0, 0, 0, 0, 0, 0, 0],
        firm_ids := [[0, 0, 1, 2, 2, 3, 4]] }
      [0, 0, 1, 2, 2, 3, 4] rfl rfl).2 0 (by decide) 2 (by decide)

theorem getD_map_of_lt {α β : Type} (f : α → β) (l : List α) (d : β)
    (d2 : α) : ∀ n, n < l.length → (l.map f).getD n d = f (l.getD n d2) := by
  induction l with
  | nil => intro n h; simp at h
  | cons a l ih =>
      intro n h
      cases n with
      | zero => simp
      | succ n => simpa using ih n (by simpa using h)

theorem getD_flatMap {α β : Type} (l : List α) (f : α → List β) (d : β) :
    ∀ (u : Nat) (hu : u < l.length) (j : Nat),
      j < (f (l.get ⟨u, hu⟩)).length →
      (l.flatMap f).getD (((l.take u).map (fun a => (f a).length)).sum + j) d
        = (f (l.get ⟨u, hu⟩)).getD j d := by
  induction l with
  | nil => intro u hu; simp at hu
  | cons a l ih =>
      intro u hu j hj
      cases u with
      | zero =>
          simp only [List.take_zero, List.map_nil, List.sum_nil, Nat.zero_add]
          rw [List.flatMap_cons]
          exact List.getD_append _ _ _ _ (by simpa using hj)
      | succ u =>
          rw [List.flatMap_cons]
          simp only [List.take_succ_cons, List.map_cons, List.sum_cons]
          rw [show (f a).length +
                ((l.take u).map (fun a2 => (f a2).length)).sum + j =
              (f a).length +
                (((l.take u).map (fun a2 => (f a2).length)).sum + j) by ring,
            List.getD_append_right _ _ _ _ (by omega),
            Nat.add_sub_cancel_left]
          exact ih u (by simpa using hu) j hj

theorem getD_zipWith_append {α : Type} (l1 : List (List α)) :
    ∀ (l2 : List (List α)) (r : Nat), r < l1.length → r < l2.length →
      (List.zipWith (· ++ ·) l1 l2).getD r [] =
        l1.getD r [] ++ l2.getD r [] := by
  induction l1 with
  | nil => intro l2 r h1; simp at h1
  | cons a l1 ih =>
      intro l2 r h1 h2
      cases l2 with
      | nil => simp at h2
      | cons b l2 =>
          cases r with
          | zero => simp
          | succ r =>
              simpa using ih l2 r (by simpa using h1) (by simpa using h2)

theorem flatten_getD_uniform {α : Type} (d : α) (J : Nat) :
    ∀ (ls : List (List α)) (c k : Nat), (∀ l ∈ ls, l.length = J) →
      c < ls.length → k < J →
      ls.flatten.getD (c * J + k) d = (ls.getD c []).getD k d := by
  intro ls
  induction ls with
  | nil => intro c k _ hc; simp at hc
  | cons a ls ih =>
      intro c k hl hc hk
      cases c with
      | zero =>
          rw [List.flatten_cons]
          simp only [Nat.zero_mul, Nat.zero_add]
          rw [List.getD_append _ _ _ _ (by rw [hl a (by simp)]; exact hk)]
          simp
      | succ c =>
          rw [List.flatten_cons,
            show (c + 1) * J + k = a.length + (c * J + k) by
              rw [hl a (by simp)]; ring,
            List.getD_append_right _ _ _ _ (by omega),
            Nat.add_sub_cancel_left]
          exact ih c k (fun l2 hl2 => hl l2 (by simp [hl2]))
            (by simpa using hc) hk

theorem sum_take_get_lt (l : List Nat) :
    ∀ (u : Nat) (hu : u < l.length) (j : Nat), j < l.get ⟨u, hu⟩ →
      (l.take u).sum + j < l.sum := by
  induction l with
  | nil => intro u hu; simp at hu
  | cons a l ih =>
      intro u hu j hj
      cases u with
      | zero =>
          simp only [List.take_zero, List.sum_nil, Nat.zero_add,
            List.sum_cons]
          have hja : j < a := hj
          omega
      | succ u =>
          simp only [List.take_succ_cons, List.sum_cons]
          have := ih u (by simpa using hu) j hj
          omega

theorem selectMarket_length (m : List Int) :
    ∀ (ids : List Int) (t : Int), ids.length = m.length →
      (selectMarket m ids t).length = m.count t := by
  induction m with
  | nil => intro ids t _; simp [selectMarket]
  | cons a m ih =>
      intro ids t hlen
      cases ids with
      | nil => simp at hlen
      | cons b ids =>
          have hlen2 : ids.length = m.length := by simpa using hlen
          have ih2 := ih ids t hlen2
          simp only [selectMarket, List.zip_cons_cons, List.filter_cons] at ih2 ⊢
          by_cases hat : a = t
          · simp [hat, List.count_cons, ih2]
          · simp [hat, List.count_cons, ih2]

theorem sum_counts_dedup (m : List Int) :
    (m.dedup.map (fun t => m.count t)).sum = m.length := by
  have h1 : ∑ x ∈ m.dedup.toFinset, m.count x =
      (m.dedup.map (fun t => m.count t)).sum :=
    List.sum_toFinset _ (List.nodup_dedup m)
  have h2 : m.dedup.toFinset = m.toFinset := by
    ext a
    simp [List.mem_toFinset, List.mem_dedup]
  rw [← h1, h2]
  have h3 := Multiset.toFinset_sum_count_eq (↑m : Multiset Int)
  simpa using h3

theorem sum_counts_sortedUnique (m : List Int) :
    ((sortedUniqueMarkets m).map (fun t => m.count t)).sum = m.length := by
  have hperm := (List.perm_insertionSort (· ≤ ·) m.dedup).map
    (fun t => m.count t)
  rw [sortedUniqueMarkets, hperm.sum_eq]
  exact sum_counts_dedup m

theorem le_foldr_max (l : List Nat) : ∀ x ∈ l, x ≤ l.foldr max 0 := by
  induction l with
  | nil => simp
  | cons a l ih =>
      intro x hx
      rcases List.mem_cons.1 hx with rfl | hx2
      · exact le_max_left _ _
      · exact le_trans (ih x hx2) (le_max_right _ _)

theorem count_le_maxMarketSize (m : List Int) (t : Int) (ht : t ∈ m) :
    m.count t ≤ maxMarketSize m :=
  le_foldr_max _ _ (List.mem_map.2 ⟨t, List.mem_dedup.2 ht, rfl⟩)

theorem sortedUniqueMarkets_sorted (m : List Int) :
    (sortedUniqueMarkets m).Sorted (· ≤ ·) :=
  List.sorted_insertionSort (· ≤ ·) m.dedup

theorem sortedUniqueMarkets_nodup (m : List Int) :
    (sortedUniqueMarkets m).Nodup :=
  ((List.perm_insertionSort (· ≤ ·) m.dedup).nodup_iff).2 (List.nodup_dedup m)

theorem mem_sortedUniqueMarkets (m : List Int) (t : Int) :
    t ∈ sortedUniqueMarkets m ↔ t ∈ m := by
  rw [sortedUniqueMarkets,
    (List.perm_insertionSort (· ≤ ·) m.dedup).mem_iff]
  exact List.mem_dedup

theorem ownershipBlock_length (κ : Int → Int → ℚ) (J : Nat)
    (ids_t : List Int) : (ownershipBlock κ J ids_t).length = ids_t.length := by
  simp [ownershipBlock]

theorem ownershipBlock_row_length (κ : Int → Int → ℚ) (J : Nat)
    (ids_t : List Int) (row : List (Option ℚ))
    (h : row ∈ ownershipBlock κ J ids_t) : row.length = J := by
  simp only [ownershipBlock, List.mem_map] at h
  obtain ⟨fi, -, rfl⟩ := h
  simp

theorem ownershipBlock_entry (κ : Int → Int → ℚ) (J : Nat) (ids_t : List Int)
    (j k : Nat) (hj : j < ids_t.length) (hk : k < J) :
    ((ownershipBlock κ J ids_t).getD j []).getD k Option.none =
      (if k < ids_t.length
       then some (κ (ids_t.getD j 0) (ids_t.getD k 0))
       else Option.none) := by
  rw [ownershipBlock, getD_map_of_lt _ ids_t [] 0 j hj,
    getD_map_of_lt _ (List.range J) Option.none 0 k (by simpa using hk),
    List.getD_eq_getElem _ _ (by simpa using hk), List.getElem_range]

theorem ownershipStack_length (κ : Int → Int → ℚ) (m : List Int) (J : Nat)
    (ids : List Int) (hlen : ids.length = m.length) :
    (ownershipStack κ m J ids).length = m.length := by
  rw [ownershipStack, List.length_flatMap]
  have hmap : ∀ t ∈ sortedUniqueMarkets m,
      (List.length ∘ fun t2 => ownershipBlock κ J (selectMarket m ids t2)) t =
        (fun t2 => m.count t2) t := by
    intro t _
    simp only [Function.comp_apply, ownershipBlock_length]
    exact selectMarket_length m ids t hlen
  rw [List.map_congr_left hmap, sum_counts_sortedUnique]

theorem ownershipStack_row_length (κ : Int → Int → ℚ) (m : List Int) (J : Nat)
    (ids : List Int) (row : List (Option ℚ))
    (h : row ∈ ownershipStack κ m J ids) : row.length = J := by
  rw [ownershipStack] at h
  simp only [List.mem_flatMap] at h
  obtain ⟨t, -, hrow⟩ := h
  exact ownershipBlock_row_length κ J _ row hrow

theorem ownershipStack_getD (κ : Int → Int → ℚ) (m : List Int) (J : Nat)
    (ids : List Int) (hlen : ids.length = m.length)
    (u : Nat) (hu : u < (sortedUniqueMarkets m).length) (j : Nat)
    (hj : j < m.count ((sortedUniqueMarkets m).getD u 0)) :
    (ownershipStack κ m J ids).getD (blockOffset m u + j) [] =
      (ownershipBlock κ J
        (selectMarket m ids ((sortedUniqueMarkets m).getD u 0))).getD j [] := by
  have hget : (sortedUniqueMarkets m).getD u 0 =
      (sortedUniqueMarkets m).get ⟨u, hu⟩ := by
    rw [List.getD_eq_getElem _ _ hu]
    rfl
  rw [ownershipStack, hget]
  have hoff : blockOffset m u =
      (((sortedUniqueMarkets m).take u).map
        (fun t => (ownershipBlock κ J (selectMarket m ids t)).length)).sum := by
    rw [blockOffset]
    congr 1
    refine List.map_congr_left (fun t _ => ?_)
    rw [marketSize, ownershipBlock_length]
    exact (selectMarket_length m ids t hlen).symm
  rw [hoff]
  refine getD_flatMap _ _ _ u hu j ?_
  rw [ownershipBlock_length, selectMarket_length m ids _ hlen, ← hget]
  exact hj

theorem build_ownership_ok_inv (mcols : Nat) (m : List Int)
    (fcols : List (List Int)) (ka : KappaArg) (M : List (List (Option ℚ)))
    (h : build_ownership ⟨some (mcols, m), some fcols⟩ ka = .ok M) :
    mcols ≤ 1 ∧ ka ≠ .notCallable ∧
    M = hstackAll
      (fcols.map (ownershipStack (kappaFn ka) m (maxMarketSize m))) := by
  by_cases hc : 1 < mcols
  · simp [build_ownership, hc] at h
  · cases ka with
    | none =>
        simp only [build_ownership, if_neg hc] at h
        exact ⟨by omega, by simp, (Except.ok.inj h).symm⟩
    | callableF f =>
        simp only [build_ownership, if_neg hc] at h
        exact ⟨by omega, by simp, (Except.ok.inj h).symm⟩
    | notCallable => simp [build_ownership, hc] at h

theorem hstackAll_length (sts : List (List (List (Option ℚ)))) (n : Nat) :
    sts ≠ [] → (∀ s ∈ sts, s.length = n) →
      (hstackAll sts).length = n := by
  induction sts with
  | nil => intro hne; exact absurd rfl hne
  | cons s rest ih =>
      intro _ hl
      cases rest with
      | nil => simpa [hstackAll] using hl s (by simp)
      | cons s2 rest2 =>
          simp only [hstackAll]
          rw [List.length_zipWith]
          have h1 : s.length = n := hl s (by simp)
          have h2 : (hstackAll (s2 :: rest2)).length = n :=
            ih (by simp) (fun x hx => hl x (by simp [hx]))
          omega

theorem hstackAll_getD (sts : List (List (List (Option ℚ)))) (n : Nat) :
    sts ≠ [] → (∀ s ∈ sts, s.length = n) → ∀ r, r < n →
      (hstackAll sts).getD r [] =
        (sts.map (fun s => s.getD r [])).flatten := by
  induction sts with
  | nil => intro hne; exact absurd rfl hne
  | cons s rest ih =>
      intro _ hl r hr
      cases rest with
      | nil => simp [hstackAll]
      | cons s2 rest2 =>
          simp only [hstackAll]
          rw [getD_zipWith_append _ _ r (by rw [hl s (by simp)]; exact hr)
              (by rw [hstackAll_length (s2 :: rest2) n (by simp)
                  (fun x hx => hl x (by simp [hx]))]; exact hr),
            ih (by simp) (fun x hx => hl x (by simp [hx])) r hr]
          simp

theorem blockOffset_add_lt (m : List Int) (u : Nat)
    (hu : u < (sortedUniqueMarkets m).length) (j : Nat)
    (hj : j < m.count ((sortedUniqueMarkets m).getD u 0)) :
    blockOffset m u + j < m.length := by
  have hget : (sortedUniqueMarkets m).getD u 0 =
      (sortedUniqueMarkets m).get ⟨u, hu⟩ := by
    rw [List.getD_eq_getElem _ _ hu]
    rfl
  have hu2 : u < ((sortedUniqueMarkets m).map (fun t => m.count t)).length := by
    simpa using hu
  have hfix : ((sortedUniqueMarkets m).map (fun t => m.count t)).get ⟨u, hu2⟩ =
      m.count ((sortedUniqueMarkets m).get ⟨u, hu⟩) := by
    simp [List.get_eq_getElem, List.getElem_map]
  have hkey := sum_take_get_lt
      ((sortedUniqueMarkets m).map (fun t => m.count t)) u hu2 j
      (by rw [hfix, ← hget]; exact hj)
  rw [sum_counts_sortedUnique m] at hkey
  have hoff : blockOffset m u =
      (((sortedUniqueMarkets m).map (fun t => m.count t)).take u).sum := by
    rw [blockOffset, ← List.map_take]
    congr 1
  omega

theorem build_ownership_entryD (mcols : Nat) (m : List Int)
    (fcols : List (List Int)) (ka : KappaArg) (M : List (List (Option ℚ)))
    (hlen : ∀ ids ∈ fcols, ids.length = m.length)
    (h : build_ownership ⟨some (mcols, m), some fcols⟩ ka = .ok M)
    (c : Nat) (hc : c < fcols.length)
    (u : Nat) (hu : u < (sortedUniqueMarkets m).length)
    (j k : Nat) (hj : j < m.count ((sortedUniqueMarkets m).getD u 0))
    (hk : k < maxMarketSize m) :
    (M.getD (blockOffset m u + j) []).getD
        (c * maxMarketSize m + k) Option.none =
      (if k < (selectMarket m (fcols.getD c [])
            ((sortedUniqueMarkets m).getD u 0)).length
       then some (kappaFn ka
          ((selectMarket m (fcols.getD c [])
              ((sortedUniqueMarkets m).getD u 0)).getD j 0)
          ((selectMarket m (fcols.getD c [])
              ((sortedUniqueMarkets m).getD u 0)).getD k 0))
       else Option.none) := by
  obtain ⟨hc1, hnc, hM⟩ := build_ownership_ok_inv mcols m fcols ka M h
  subst hM
  have hfne : fcols ≠ [] := List.ne_nil_of_length_pos (by omega)
  have hrow : blockOffset m u + j < m.length := blockOffset_add_lt m u hu j hj
  have hstacklen : ∀ s ∈ fcols.map
      (ownershipStack (kappaFn ka) m (maxMarketSize m)), s.length = m.length := by
    intro s hs
    obtain ⟨ids, hids, rfl⟩ := List.mem_map.1 hs
    exact ownershipStack_length _ m _ ids (hlen ids hids)
  have hne2 : fcols.map (ownershipStack (kappaFn ka) m (maxMarketSize m)) ≠ [] := by
    intro hh
    exact hfne (List.map_eq_nil_iff.1 hh)
  rw [hstackAll_getD _ m.length hne2 hstacklen _ hrow]
  have hrows : ∀ l ∈ (fcols.map
      (ownershipStack (kappaFn ka) m (maxMarketSize m))).map
        (fun s => s.getD (blockOffset m u + j) []), l.length = maxMarketSize m := by
    intro l hl
    obtain ⟨s, hs, rfl⟩ := List.mem_map.1 hl
    have hsl : s.length = m.length := hstacklen s hs
    have hmem : s.getD (blockOffset m u + j) [] ∈ s := by
      rw [List.getD_eq_getElem _ _ (by omega)]
      exact List.getElem_mem _
    obtain ⟨ids, hids, rfl⟩ := List.mem_map.1 hs
    exact ownershipStack_row_length _ _ _ _ _ hmem
  rw [flatten_getD_uniform Option.none (maxMarketSize m) _ c k hrows
    (by simpa using hc) hk]
  rw [List.map_map, getD_map_of_lt _ fcols [] [] c hc]
  simp only [Function.comp_apply]
  have hmemc : fcols.getD c [] ∈ fcols := by
    rw [List.getD_eq_getElem _ _ hc]
    exact List.getElem_mem hc
  rw [ownershipStack_getD (kappaFn ka) m (maxMarketSize m)
    (fcols.getD c []) (hlen _ hmemc) u hu j hj]
  refine ownershipBlock_entry (kappaFn ka) (maxMarketSize m) _ j k ?_ hk
  rw [selectMarket_length m _ _ (hlen _ hmemc)]
  exact hj

/-- Claim C5: with no cooperation function, every entry `(j, k)` of every
market's `J_t × J_t` block of `build_ownership`'s output (for every firm-ID
column `c`, markets in sorted unique order) is 1 when products `j` and `k`
have equal firm IDs and 0 otherwise; in particular every diagonal entry of
every market block is 1. -/
theorem build_ownership_default_entries (mcols : Nat) (m : List Int)
    (fcols : List (List Int)) (M : List (List (Option ℚ)))
    (hlen : ∀ ids ∈ fcols, ids.length = m.length)
    (h : build_ownership ⟨some (mcols, m), some fcols⟩ KappaArg.none = .ok M)
    (c : Nat) (hc : c < fcols.length)
    (u : Nat) (hu : u < (sortedUniqueMarkets m).length) :
    (∀ j k,
      j < (selectMarket m (fcols.getD c [])
        ((sortedUniqueMarkets m).getD u 0)).length →
      k < (selectMarket m (fcols.getD c [])
        ((sortedUniqueMarkets m).getD u 0)).length →
      (M.getD (blockOffset m u + j) []).getD
          (c * maxMarketSize m + k) Option.none =
        some (if (selectMarket m (fcols.getD c [])
                  ((sortedUniqueMarkets m).getD u 0)).getD j 0 =
                 (selectMarket m (fcols.getD c [])
                  ((sortedUniqueMarkets m).getD u 0)).getD k 0
              then 1 else 0)) ∧
    (∀ j,
      j < (selectMarket m (fcols.getD c [])
        ((sortedUniqueMarkets m).getD u 0)).length →
      (M.getD (blockOffset m u + j) []).getD
          (c * maxMarketSize m + j) Option.none = some 1) := by
  have hmemc : fcols.getD c [] ∈ fcols := by
    rw [List.getD_eq_getElem _ _ hc]
    exact List.getElem_mem hc
  have hsl : (selectMarket m (fcols.getD c [])
      ((sortedUniqueMarkets m).getD u 0)).length =
        m.count ((sortedUniqueMarkets m).getD u 0) :=
    selectMarket_length m _ _ (hlen _ hmemc)
  have htm : (sortedUniqueMarkets m).getD u 0 ∈ m := by
    rw [← mem_sortedUniqueMarkets, List.getD_eq_getElem _ _ hu]
    exact List.getElem_mem hu
  have hcm : m.count ((sortedUniqueMarkets m).getD u 0) ≤ maxMarketSize m :=
    count_le_maxMarketSize m _ htm
  have hmain : ∀ j k,
      j < (selectMarket m (fcols.getD c [])
        ((sortedUniqueMarkets m).getD u 0)).length →
      k < (selectMarket m (fcols.getD c [])
        ((sortedUniqueMarkets m).getD u 0)).length →
      (M.getD (blockOffset m u + j) []).getD
          (c * maxMarketSize m + k) Option.none =
        some (if (selectMarket m (fcols.getD c [])
                  ((sortedUniqueMarkets m).getD u 0)).getD j 0 =
                 (selectMarket m (fcols.getD c [])
                  ((sortedUniqueMarkets m).getD u 0)).getD k 0
              then 1 else 0) := by
    intro j k hj hk
    have hkmax : k < maxMarketSize m := by omega
    have hent := build_ownership_entryD mcols m fcols KappaArg.none M hlen h
      c hc u hu j k (by omega) hkmax
    rw [hent, if_pos hk]
    rfl
  exact ⟨hmain, fun j hj => by rw [hmain j j hj hj, if_pos rfl]⟩

/-- Witness for C5: markets of sizes [2, 3] with firm column [5, 5, 6, 5, 7];
the diagonal entry of the second market's block at (0, 0) is 1. -/
theorem build_ownership_default_entries_witness :
    (([[some 1, some 1, Option.none],
       [some 1, some 1, Option.none],
       [some (1 : ℚ), some 0, some 0],
       [some 0, some 1, some 0],
       [some 0, some 0, some 1]] : List (List (Option ℚ))).getD
        (blockOffset [0, 0, 1, 1, 1] 1 + 0) []).getD
      (0 * maxMarketSize [0, 0, 1, 1, 1] + 0) Option.none = some 1 :=
  (build_ownership_default_entries 1 [0, 0, 1, 1, 1] [[5, 5, 6, 5, 7]]
      [[some 1, some 1, Option.none],
       [some 1, some 1, Option.none],
       [some (1 : ℚ), some 0, some 0],
       [some 0, some 1, some 0],
       [some 0, some 0, some 1]]
      (by decide) rfl 0 (by decide) 1 (by decide)).2 0 (by decide)

/-- Claim C6: the output of `build_ownership` on a table with markets of
sizes J_1..J_T has `sum J_t` rows (equivalently, one row per product) and
`k * J` columns for `k` firm-ID columns, where `J = max J_t`; the vertical
blocks follow the sorted unique market-ID order; and inside the block of
market number `u`, an entry in columns `J_t..J-1` is the `numpy.nan`
sentinel while entries in columns `0..J_t-1` never are (they hold the
cooperation value for the corresponding product pair of that firm-ID
column). -/
theorem build_ownership_shape_padding (mcols : Nat) (m : List Int)
    (fcols : List (List Int)) (ka : KappaArg) (M : List (List (Option ℚ)))
    (hfne : fcols ≠ [])
    (hlen : ∀ ids ∈ fcols, ids.length = m.length)
    (h : build_ownership ⟨some (mcols, m), some fcols⟩ ka = .ok M) :
    M.length = ((sortedUniqueMarkets m).map (fun t => m.count t)).sum ∧
    M.length = m.length ∧
    (∀ r, r < M.length →
      (M.getD r []).length = fcols.length * maxMarketSize m) ∧
    (sortedUniqueMarkets m).Sorted (· ≤ ·) ∧
    (sortedUniqueMarkets m).Nodup ∧
    (∀ t, t ∈ sortedUniqueMarkets m ↔ t ∈ m) ∧
    (∀ c, c < fcols.length → ∀ u, u < (sortedUniqueMarkets m).length →
      ∀ j k, j < m.count ((sortedUniqueMarkets m).getD u 0) →
        k < maxMarketSize m →
        (((M.getD (blockOffset m u + j) []).getD
            (c * maxMarketSize m + k) Option.none = Option.none) ↔
          m.count ((sortedUniqueMarkets m).getD u 0) ≤ k) ∧
        (k < m.count ((sortedUniqueMarkets m).getD u 0) →
          (M.getD (blockOffset m u + j) []).getD
              (c * maxMarketSize m + k) Option.none =
            some (kappaFn ka
              ((selectMarket m (fcols.getD c [])
                  ((sortedUniqueMarkets m).getD u 0)).getD j 0)
              ((selectMarket m (fcols.getD c [])
                  ((sortedUniqueMarkets m).getD u 0)).getD k 0)))) := by
  obtain ⟨hc1, hnc, hM⟩ := build_ownership_ok_inv mcols m fcols ka M h
  have hstacklen : ∀ s ∈ fcols.map
      (ownershipStack (kappaFn ka) m (maxMarketSize m)),
      s.length = m.length := by
    intro s hs
    obtain ⟨ids, hids, rfl⟩ := List.mem_map.1 hs
    exact ownershipStack_length _ m _ ids (hlen ids hids)
  have hne2 : fcols.map (ownershipStack (kappaFn ka) m (maxMarketSize m))
      ≠ [] := by
    intro hh
    exact hfne (List.map_eq_nil_iff.1 hh)
  have hlenM : M.length = m.length := by
    rw [hM]
    exact hstackAll_length _ m.length hne2 hstacklen
  refine ⟨by rw [sum_counts_sortedUnique]; exact hlenM, hlenM, ?_,
    sortedUniqueMarkets_sorted m, sortedUniqueMarkets_nodup m,
    mem_sortedUniqueMarkets m, ?_⟩
  · intro r hr
    rw [hlenM] at hr
    rw [hM, hstackAll_getD _ m.length hne2 hstacklen r hr, List.map_map,
      List.length_flatten, List.map_map]
    have hconst : ∀ ids ∈ fcols,
        (List.length ∘ ((fun s => s.getD r []) ∘
          ownershipStack (kappaFn ka) m (maxMarketSize m))) ids =
          (fun _ : List Int => maxMarketSize m) ids := by
      intro ids hids
      simp only [Function.comp_apply]
      have hsl2 : (ownershipStack (kappaFn ka) m (maxMarketSize m) ids).length
          = m.length := ownershipStack_length _ _ _ _ (hlen ids hids)
      have hmem : (ownershipStack (kappaFn ka) m (maxMarketSize m)
          ids).getD r [] ∈
            ownershipStack (kappaFn ka) m (maxMarketSize m) ids := by
        rw [List.getD_eq_getElem _ _ (by omega)]
        exact List.getElem_mem _
      exact ownershipStack_row_length _ _ _ _ _ hmem
    rw [List.map_congr_left hconst, List.map_const', List.sum_replicate,
      smul_eq_mul]
  · intro c hc u hu j k hj hk
    have hmemc : fcols.getD c [] ∈ fcols := by
      rw [List.getD_eq_getElem _ _ hc]
      exact List.getElem_mem hc
    have hsl : (selectMarket m (fcols.getD c [])
        ((sortedUniqueMarkets m).getD u 0)).length =
          m.count ((sortedUniqueMarkets m).getD u 0) :=
      selectMarket_length m _ _ (hlen _ hmemc)
    have hmaster := build_ownership_entryD mcols m fcols ka M hlen h
      c hc u hu j k hj hk
    constructor
    · rw [hmaster, hsl]
      by_cases h2 : k < m.count ((sortedUniqueMarkets m).getD u 0)
      · rw [if_pos h2]
        constructor
        · intro hcon
          exact absurd hcon (by simp)
        · intro hle
          omega
      · rw [if_neg h2]
        constructor
        · intro _
          omega
        · intro _
          rfl
    · intro hk2
      rw [hmaster, if_pos (by omega)]

/-- Witness for C6: markets of sizes [2, 3]: the stacked matrix has 5 rows
and its first block's third column is the sentinel. -/
theorem build_ownership_shape_padding_witness :
    ([[some 1, some 1, Option.none],
      [some 1, some 1, Option.none],
      [some (1 : ℚ), some 0, some 0],
      [some 0, some 1, some 0],
      [some 0, some 0, some 1]] : List (List (Option ℚ))).length =
        ([0, 0, 1, 1, 1] : List Int).length ∧
    ((([[some 1, some 1, Option.none],
        [some 1, some 1, Option.none],
        [some (1 : ℚ), some 0, some 0],
        [some 0, some 1, some 0],
        [some 0, some 0, some 1]] : List (List (Option ℚ))).getD
          (blockOffset [0, 0, 1, 1, 1] 0 + 0) []).getD
        (0 * maxMarketSize [0, 0, 1, 1, 1] + 2) Option.none = Option.none ↔
      ([0, 0, 1, 1, 1] : List Int).count
        ((sortedUniqueMarkets [0, 0, 1, 1, 1]).getD 0 0) ≤ 2) :=
  ⟨(build_ownership_shape_padding 1 [0, 0, 1, 1, 1] [[5, 5, 6, 5, 7]]
      KappaArg.none
      [[some 1, some 1, Option.none],
       [some 1, some 1, Option.none],
       [some (1 : ℚ), some 0, some 0],
       [some 0, some 1, some 0],
       [some 0, some 0, some 1]]
      (by decide) (by decide) rfl).2.1,
   ((build_ownership_shape_padding 1 [0, 0, 1, 1, 1] [[5, 5, 6, 5, 7]]
      KappaArg.none
      [[some 1, some 1, Option.none],
       [some 1, some 1, Option.none],
       [some (1 : ℚ), some 0, some 0],
       [some 0, some 1, some 0],
       [some 0, some 0, some 1]]
      (by decide) (by decide) rfl).2.2.2.2.2.2 0 (by decide) 0 (by decide)
      0 2 (by decide) (by decide)).1⟩

-- Concrete sanity checks of the embedding (evaluated by the kernel).

example :
    build_id_data 2 5 4 [.dict [(.int 2, .int 0)]] =
      .ok { market_ids := [0, 0, 0, 0, 0, 1, 1, 1, 1, 1],
            firm_ids := [[0, 0, 1, 2, 3, 0, 0, 1, 2, 3],
                         [0, 0, 1, 0, 3, 0, 0, 1, 0, 3]] } := rfl

example : build_id_data 0 5 4 [] = .error .invalidArgument := rfl

example : build_id_data 1 3 4 [] = .error .invalidArgument := rfl

example : build_id_data 1 4 4 [.nonDict] = .error .invalidType := rfl

example :
    build_id_data 1 4 4 [.dict [(.int 4, .int 0)]] =
      .error .invalidArgument := rfl

-- the merger range check is the closed interval [0, F-1]: the key F-1 passes
example :
    build_id_data 1 2 2 [.dict [(.int 1, .int 1)]] =
      .ok { market_ids := [0, 0], firm_ids := [[0, 1], [0, 1]] } := rfl

-- sequential remapping chains: {0: 1, 1: 0} sends everything to 0
example :
    build_id_data 1 2 2 [.dict [(.int 0, .int 1), (.int 1, .int 0)]] =
      .ok { market_ids := [0, 0], firm_ids := [[0, 1], [0, 0]] } := rfl

-- the J=7, F=5 distribution: firm 1 gets one product, firm 2 gets two
example :
    build_id_data 1 7 5 [] =
      .ok { market_ids := [0, 0, 0, 0, 0, 0, 0],
            firm_ids := [[0, 0, 1, 2, 2, 3, 4]] } := rfl

-- markets of sizes [2, 3]: a 5 x 3 matrix, nan-padding in the first block
example :
    build_ownership ⟨some (1, [0, 0, 1, 1, 1]), some [[5, 5, 6, 5, 7]]⟩ .none =
      .ok [[some 1, some 1, Option.none],
           [some 1, some 1, Option.none],
           [some 1, some 0, some 0],
           [some 0, some 1, some 0],
           [some 0, some 0, some 1]] := rfl

example :
    build_ownership ⟨some (1, [0]), Option.none⟩ .notCallable =
      .error .missingField := rfl

example :
    build_ownership ⟨some (2, [0, 1]), some [[3, 3]]⟩ .none =
      .error .invalidShape := rfl

-- blocks appear in sorted unique market-ID order even if rows are not sorted
example :
    build_ownership ⟨some (1, [7, 3, 7]), some [[1, 2, 1]]⟩ .none =
      .ok [[some 1, Option.none],
           [some 1, some 1],
           [some 1, some 1]] := rfl

-- two firm-ID columns: the per-column stacks side by side (2 * J columns)
example :
    build_ownership ⟨some (1, [0, 0]), some [[1, 2], [4, 4]]⟩ .none =
      .ok [[some 1, some 0, some 1, some 1],
           [some 0, some 1, some 1, some 1]] := rfl

end PyBLPConstruction
